import Mathlib

/-!
# Verification development for the LZ4-style block codec example

The repository consists of an example program (`examples/arcmsh.cpp`) that
compresses seven little-endian 64-bit integers with an LZ4-style block codec,
shrinks the compressed buffer, partially decompresses a 48-byte prefix and
validates the result.  The codec itself (bound calculator, encoder, safe
decoder, partial safe decoder) is not part of the repository sources, only its
caller is; the codec is therefore modelled here from the specification.

Byte sequences are modelled as `List Nat` (each entry a byte value `< 256`);
fallible operations return `Option` or an explicit result type carrying both
the outcome and the bytes written, so that buffer-safety statements can be
made about failing runs as well.
-/

namespace LZ4

/-- Modelled from the spec: error kinds of the codec (section 7); `SizeTooLarge`
is represented by `Option.none` from the bound calculator. -/
inductive Err where
  | malformedInput
  | insufficientDestination
deriving DecidableEq, Repr

/-- Result of a decoder run: either success with the produced output, or an
explicit failure carrying the bytes written before the failure was detected
(the destination's contents are unspecified on failure, but they are still
tracked so that write-bounds statements cover failing runs). -/
inductive DecResult where
  | ok (out : List Nat)
  | fail (e : Err) (out : List Nat)
deriving DecidableEq, Repr

/-- The bytes a decoder run has written to the destination. -/
def DecResult.written : DecResult → List Nat
  | .ok o => o
  | .fail _ o => o

/-- Minimum back-reference match length of the format. -/
def minMatch : Nat := 4

/-- Largest representable back-reference offset (two-byte offset field). -/
def maxOffset : Nat := 65535

/-- Maximum supported block size (LZ4_MAX_INPUT_SIZE, 0x7E000000). -/
def maxBlockSize : Nat := 2113929216

/-- A byte sequence: every element is a byte value. -/
def isBytes (s : List Nat) : Prop := ∀ b ∈ s, b < 256

instance isBytes_decidable (s : List Nat) : Decidable (isBytes s) :=
  inferInstanceAs (Decidable (∀ b ∈ s, b < 256))

/-- Continuation-byte encoding of a length remainder: a run of 255-bytes
followed by a final byte `< 255`. -/
def lenBytes (n : Nat) : List Nat := List.replicate (n / 255) 255 ++ [n % 255]

/-- Extra length bytes emitted after a token nibble: empty when the value fits
in the nibble (`< 15`), otherwise the continuation encoding of the excess. -/
def lenExtra (n : Nat) : List Nat := if n < 15 then [] else lenBytes (n - 15)

/-- Modelled from the spec: decoder side of the escalating run-length fields —
accumulate 255 per continuation byte until a byte `< 255` terminates; `none`
when the input ends inside the field (a truncated token). -/
def readExtra : Nat → List Nat → Option (Nat × List Nat)
  | _, [] => none
  | acc, b :: r => if b % 256 = 255 then readExtra (acc + 255) r else some (acc + b % 256, r)

/-- Decode a length field given its token nibble: nibble `15` escalates via
continuation bytes, smaller nibbles are the length itself. -/
def readLen (nib : Nat) (inp : List Nat) : Option (Nat × List Nat) :=
  if nib = 15 then readExtra 15 inp else some (nib, inp)

/-- Modelled from the spec: incremental forward byte-by-byte overlap copy for
back-references — each step appends the byte `offset` positions back in the
output produced so far, so self-overlapping copies replicate correctly. -/
def extendMatch : List Nat → Nat → Nat → List Nat
  | out, _, 0 => out
  | out, off, n + 1 => extendMatch (out ++ [out.getD (out.length - off) 0]) off n

/-- One decoding step either finishes with a result or continues with the rest
of the input and a grown output. -/
inductive Step where
  | done (r : DecResult)
  | next (inp out : List Nat)

/-- Modelled from the spec: one token of the Safe Decoder (section 4.3) —
parse the token byte, the literal run (checking stream availability and
destination capacity), then end cleanly at input exhaustion or parse the
two-byte offset (rejecting offset `0` and offsets past the output produced so
far) and the match length, and perform the overlap-safe match copy. -/
def decodeStep (inp out : List Nat) (cap : Nat) : Step :=
  match inp with
  | [] => .done (.fail .malformedInput out)
  | t :: r1 =>
    match readLen (t % 256 / 16) r1 with
    | none => .done (.fail .malformedInput out)
    | some (litLen, r2) =>
      if litLen ≤ r2.length then
        if out.length + litLen ≤ cap then
          match r2.drop litLen with
          | [] => .done (.ok (out ++ r2.take litLen))
          | [_] => .done (.fail .malformedInput (out ++ r2.take litLen))
          | b0 :: b1 :: r4 =>
            if 1 ≤ b0 % 256 + 256 * (b1 % 256) ∧
                b0 % 256 + 256 * (b1 % 256) ≤ (out ++ r2.take litLen).length then
              match readLen (t % 256 % 16) r4 with
              | none => .done (.fail .malformedInput (out ++ r2.take litLen))
              | some (m, r5) =>
                if (out ++ r2.take litLen).length + (m + minMatch) ≤ cap then
                  .next r5 (extendMatch (out ++ r2.take litLen)
                    (b0 % 256 + 256 * (b1 % 256)) (m + minMatch))
                else .done (.fail .insufficientDestination (out ++ r2.take litLen))
            else .done (.fail .malformedInput (out ++ r2.take litLen))
        else .done (.fail .insufficientDestination out)
      else .done (.fail .malformedInput out)

/-- Fuel-indexed token loop of the Safe Decoder; each step consumes at least
one input byte, so `inp.length + 1` fuel always suffices. -/
def decodeLoop : Nat → List Nat → List Nat → Nat → DecResult
  | 0, _, out, _ => .fail .malformedInput out
  | f + 1, inp, out, cap =>
    match decodeStep inp out cap with
    | .done r => r
    | .next i o => decodeLoop f i o cap

/-- Modelled from the spec: the Safe Decoder (`LZ4_decompress_safe`):
`decompress compressed destinationCapacity`; the whole `compressed` list is
the `compressedLength`-byte input. -/
def decompress (inp : List Nat) (cap : Nat) : DecResult :=
  decodeLoop (inp.length + 1) inp [] cap

/-- Modelled from the spec: one token of the Partial Safe Decoder
(section 4.4) — like `decodeStep` but truncating a token's output at the
requested target: a literal run longer than needed is cut (only the needed
literal bytes must be present), and a match copy is cut without requiring
anything beyond the match-length field. -/
def partialStep (inp out : List Nat) (cap target : Nat) : Step :=
  match inp with
  | [] => .done (.fail .malformedInput out)
  | t :: r1 =>
    match readLen (t % 256 / 16) r1 with
    | none => .done (.fail .malformedInput out)
    | some (litLen, r2) =>
      if min target cap - out.length ≤ litLen then
        if min target cap - out.length ≤ r2.length then
          .done (.ok (out ++ r2.take (min target cap - out.length)))
        else .done (.fail .malformedInput out)
      else
        if litLen ≤ r2.length then
          match r2.drop litLen with
          | [] => .done (.ok (out ++ r2.take litLen))
          | [_] => .done (.fail .malformedInput (out ++ r2.take litLen))
          | b0 :: b1 :: r4 =>
            if 1 ≤ b0 % 256 + 256 * (b1 % 256) ∧
                b0 % 256 + 256 * (b1 % 256) ≤ (out ++ r2.take litLen).length then
              match readLen (t % 256 % 16) r4 with
              | none => .done (.fail .malformedInput (out ++ r2.take litLen))
              | some (m, r5) =>
                .next r5 (extendMatch (out ++ r2.take litLen)
                  (b0 % 256 + 256 * (b1 % 256))
                  (min (m + minMatch) (min target cap - (out ++ r2.take litLen).length)))
            else .done (.fail .malformedInput (out ++ r2.take litLen))
        else .done (.fail .malformedInput out)

/-- Fuel-indexed token loop of the Partial Safe Decoder: it stops successfully
as soon as the (capacity-clamped) target has been produced. -/
def partialLoop : Nat → List Nat → List Nat → Nat → Nat → DecResult
  | 0, _, out, _, _ => .fail .malformedInput out
  | f + 1, inp, out, cap, target =>
    if min target cap ≤ out.length then .ok out
    else
      match partialStep inp out cap target with
      | .done r => r
      | .next i o => partialLoop f i o cap target

/-- Modelled from the spec: the Partial Safe Decoder
(`LZ4_decompress_safe_partial`):
`decompressPartial compressed destinationCapacity targetOutputLength`. -/
def decompressPartial (inp : List Nat) (cap target : Nat) : DecResult :=
  partialLoop (inp.length + 1) inp [] cap target

/-- Length of the common prefix of two byte lists. -/
def commonPrefixLen : List Nat → List Nat → Nat
  | a :: as, b :: bs => if a = b then commonPrefixLen as bs + 1 else 0
  | _, _ => 0

/-- Length of the match between source positions `i` (earlier) and `j`. -/
def candLen (s : List Nat) (i j : Nat) : Nat := commonPrefixLen (s.drop i) (s.drop j)

/-- Fold step of the match search: keep the longest candidate match of at
least the minimum length within the offset window. -/
def betterCand (s : List Nat) (j : Nat) (best : Option (Nat × Nat)) (i : Nat) :
    Option (Nat × Nat) :=
  if minMatch ≤ candLen s i j ∧ j - i ≤ maxOffset then
    match best with
    | none => some (j - i, candLen s i j)
    | some (bo, bl) => if bl < candLen s i j then some (j - i, candLen s i j) else some (bo, bl)
  else best

/-- Modelled from the spec: the encoder's match finder at position `j` — scan
all earlier positions within the offset window and keep the longest match of
length at least `minMatch`; returns `(offset, length)`. -/
def bestMatch (s : List Nat) (j : Nat) : Option (Nat × Nat) :=
  (List.range j).foldl (betterCand s j) none

/-- A non-final token: a literal run followed by a back-reference. -/
structure Tok where
  lits : List Nat
  off : Nat
  len : Nat
deriving DecidableEq, Repr

/-- Modelled from the spec: the greedy single-pass encoder scan (section 4.2):
at each position either emit a token for the longest match found, or extend
the current literal run; the trailing literals form the final token. -/
def encodeLoop (s : List Nat) : Nat → Nat → Nat → List Tok × List Nat
  | 0, anchor, _ => ([], s.drop anchor)
  | f + 1, anchor, j =>
    if s.length ≤ j then ([], s.drop anchor)
    else
      match bestMatch s j with
      | some (off, L) =>
        (⟨(s.drop anchor).take (j - anchor), off, L⟩ :: (encodeLoop s f (j + L) (j + L)).1,
          (encodeLoop s f (j + L) (j + L)).2)
      | none => encodeLoop s f anchor (j + 1)

/-- Token stream of a source: the match tokens plus the final literal run. -/
def encode (s : List Nat) : List Tok × List Nat := encodeLoop s (s.length + 1) 0 0

/-- Serialized token byte for a literal-run length and a match-length excess. -/
def tokByte (l m : Nat) : Nat := min l 15 * 16 + min m 15

/-- Serialization of a match token: token byte, literal-length continuation,
literal bytes, two-byte little-endian offset, match-length continuation. -/
def serializeTok (t : Tok) : List Nat :=
  tokByte t.lits.length (t.len - minMatch) ::
    (lenExtra t.lits.length ++
      (t.lits ++ (t.off % 256 :: t.off / 256 :: lenExtra (t.len - minMatch))))

/-- Header of a literals-only token. -/
def litHeader (n : Nat) : List Nat := tokByte n 0 :: lenExtra n

/-- Serialization of the final, literals-only token. -/
def serializeFin (fin : List Nat) : List Nat := litHeader fin.length ++ fin

/-- Serialization of a full token stream. -/
def serialize (p : List Tok × List Nat) : List Nat :=
  (p.1.map serializeTok).flatten ++ serializeFin p.2

/-- The compressed block of a source. -/
def compressRaw (s : List Nat) : List Nat := serialize (encode s)

/-- Worst-case compressed size for a source length (`LZ4_compressBound`). -/
def boundFn (n : Nat) : Nat := n + n / 255 + 16

/-- Modelled from the spec: the bound calculator (section 4.1); errors with
`none` (`SizeTooLarge`) past the maximum supported block size. -/
def bound (n : Nat) : Option Nat := if n ≤ maxBlockSize then some (boundFn n) else none

/-- Modelled from the spec: the encoder entry point (`LZ4_compress_default`):
fails (returns `none`) exactly when the destination capacity cannot hold the
encoded block; it never writes past the capacity while discovering this. -/
def compress (s : List Nat) (cap : Nat) : Option (List Nat) :=
  if (compressRaw s).length ≤ cap then some (compressRaw s) else none

/-- The encoder writing into a destination buffer with existing contents:
returns the compressed length and the destination after the call (written
prefix followed by the untouched remainder). -/
def compressInto (s dest : List Nat) : Option (Nat × List Nat) :=
  match compress s dest.length with
  | none => none
  | some c => some (c.length, c ++ dest.drop c.length)

/-- Semantics of one match token on the output so far. -/
def expandTok (out : List Nat) (t : Tok) : List Nat :=
  extendMatch (out ++ t.lits) t.off t.len

/-- Semantics of a full token stream on the output so far. -/
def expandAll (out : List Nat) (toks : List Tok) (fin : List Nat) : List Nat :=
  (toks.foldl expandTok out) ++ fin

/-- Well-formedness of one match token relative to the output length at which
it is decoded. -/
def wfTok (outLen : Nat) (t : Tok) : Prop :=
  1 ≤ t.off ∧ t.off ≤ outLen + t.lits.length ∧ t.off ≤ maxOffset ∧ minMatch ≤ t.len

/-- Well-formedness of a token stream relative to a starting output length. -/
def wfToks : Nat → List Tok → Prop
  | _, [] => True
  | n, t :: ts => wfTok n t ∧ wfToks (n + t.lits.length + t.len) ts

/-- Source bytes covered by a token list. -/
def sumCost : List Tok → Nat
  | [] => 0
  | t :: ts => (t.lits.length + t.len) + sumCost ts

/-- The seven 64-bit values stored by the example program. -/
def srcInts : List Nat :=
  [123123124, 334234, 454365346, 23123123, 3423423, 123123123, 5454552342]

/-- Little-endian byte encoding of a 64-bit value. -/
def int64LE (n : Nat) : List Nat := (List.range 8).map fun k => n / 256 ^ k % 256

/-- The example program's 56-byte source buffer. -/
def ex56src : List Nat := (srcInts.map int64LE).flatten

/-- The example program's `src_size`. -/
def srcSize : Nat := 56

/-- The example program's `main` after buffer setup, as a function of the
uninitialized contents `initial` of `regen_buffer` and of the bytes `g` that
happen to lie after the shrunk compressed buffer (the partial-decompression
call declares `src_size` bytes of compressed input although only
`compressed_data_size` exist): exit status 0 exactly when every check passes,
including the 56-byte `memcmp` validation. -/
def mainExit (initial g : List Nat) : Nat :=
  match compress ex56src (boundFn srcSize) with
  | none => 1
  | some c =>
    match decompressPartial ((c ++ g).take srcSize) srcSize 48 with
    | .fail _ _ => 1
    | .ok out => if (out ++ initial.drop out.length).take srcSize = ex56src then 0 else 1

/-! ## Arithmetic helpers -/

lemma div_add_div_le (a b n : Nat) : a / n + b / n ≤ (a + b) / n := by
  rcases Nat.eq_zero_or_pos n with h | h
  · simp [h]
  · rw [Nat.le_div_iff_mul_le h, Nat.add_mul]
    exact Nat.add_le_add (Nat.div_mul_le_self a n) (Nat.div_mul_le_self b n)

/-! ## Length-field parsing -/

lemma readExtra_replicate :
    ∀ k acc m rest, m < 255 →
      readExtra acc (List.replicate k 255 ++ m :: rest) = some (acc + (255 * k + m), rest) := by
  intro k
  induction k with
  | zero =>
    intro acc m rest hm
    have hm' : m % 256 = m := Nat.mod_eq_of_lt (by omega)
    simp [readExtra, hm', Nat.ne_of_lt hm]
  | succ k ih =>
    intro acc m rest hm
    have : List.replicate (k + 1) 255 = 255 :: List.replicate k 255 := rfl
    rw [this]
    show readExtra acc (255 :: (List.replicate k 255 ++ m :: rest)) = _
    rw [readExtra]
    simp only [show (255 : Nat) % 256 = 255 from rfl, if_pos rfl]
    rw [ih _ _ _ hm]
    have harith : acc + 255 + (255 * k + m) = acc + (255 * (k + 1) + m) := by ring
    rw [harith]
    simp

lemma readExtra_lenBytes (acc n : Nat) (rest : List Nat) :
    readExtra acc (lenBytes n ++ rest) = some (acc + n, rest) := by
  unfold lenBytes
  rw [List.append_assoc, List.singleton_append,
    readExtra_replicate _ _ _ _ (Nat.mod_lt _ (by omega))]
  congr 2
  have := Nat.div_add_mod n 255
  omega

lemma readLen_lenExtra (n : Nat) (rest : List Nat) :
    readLen (min n 15) (lenExtra n ++ rest) = some (n, rest) := by
  unfold readLen lenExtra
  by_cases h : n < 15
  · rw [if_pos h, if_neg (by omega), Nat.min_eq_left (by omega)]
    simp
  · rw [if_neg h, Nat.min_eq_right (by omega), if_pos rfl, readExtra_lenBytes]
    congr 2
    omega

lemma readExtra_suffix :
    ∀ inp acc n rem, readExtra acc inp = some (n, rem) → rem.length ≤ inp.length := by
  intro inp
  induction inp with
  | nil => intro acc n rem h; simp [readExtra] at h
  | cons b r ih =>
    intro acc n rem h
    rw [readExtra] at h
    by_cases hb : b % 256 = 255
    · rw [if_pos hb] at h
      have := ih _ _ _ h
      simp only [List.length_cons]
      omega
    · rw [if_neg hb] at h
      injection h with h'
      injection h' with h1 h2
      subst h2
      simp

lemma readExtra_append :
    ∀ inp g acc n rem, readExtra acc inp = some (n, rem) →
      readExtra acc (inp ++ g) = some (n, rem ++ g) := by
  intro inp
  induction inp with
  | nil => intro g acc n rem h; simp [readExtra] at h
  | cons b r ih =>
    intro g acc n rem h
    rw [readExtra] at h
    rw [List.cons_append, readExtra]
    by_cases hb : b % 256 = 255
    · rw [if_pos hb] at h ⊢
      exact ih _ _ _ _ h
    · rw [if_neg hb] at h ⊢
      injection h with h'
      injection h' with h1 h2
      subst h1; subst h2
      rfl

lemma readLen_append {nib : Nat} {inp : List Nat} {g : List Nat} {n : Nat} {rem : List Nat}
    (h : readLen nib inp = some (n, rem)) :
    readLen nib (inp ++ g) = some (n, rem ++ g) := by
  unfold readLen at h ⊢
  by_cases h15 : nib = 15
  · rw [if_pos h15] at h ⊢
    exact readExtra_append _ _ _ _ _ h
  · rw [if_neg h15] at h ⊢
    injection h with h'
    injection h' with h1 h2
    subst h1; subst h2
    rfl

/-! ## Token-byte arithmetic -/

lemma tokByte_lt (l m : Nat) : tokByte l m < 256 := by
  unfold tokByte
  have h1 : min l 15 ≤ 15 := Nat.min_le_right _ _
  have h2 : min m 15 ≤ 15 := Nat.min_le_right _ _
  omega

lemma tokByte_div (l m : Nat) : tokByte l m % 256 / 16 = min l 15 := by
  unfold tokByte
  have h1 : min l 15 ≤ 15 := Nat.min_le_right _ _
  have h2 : min m 15 ≤ 15 := Nat.min_le_right _ _
  omega

lemma tokByte_mod (l m : Nat) : tokByte l m % 256 % 16 = min m 15 := by
  unfold tokByte
  have h1 : min l 15 ≤ 15 := Nat.min_le_right _ _
  have h2 : min m 15 ≤ 15 := Nat.min_le_right _ _
  omega

/-! ## Incremental match copy -/

lemma extendMatch_length : ∀ n out off, (extendMatch out off n).length = out.length + n := by
  intro n
  induction n with
  | zero => intro out off; rfl
  | succ n ih =>
    intro out off
    rw [extendMatch, ih]
    simp
    omega

lemma extendMatch_eq_append : ∀ n out off, ∃ l, extendMatch out off n = out ++ l := by
  intro n
  induction n with
  | zero => intro out off; exact ⟨[], by simp [extendMatch]⟩
  | succ n ih =>
    intro out off
    rw [extendMatch]
    obtain ⟨l, hl⟩ := ih (out ++ [out.getD (out.length - off) 0]) off
    exact ⟨[out.getD (out.length - off) 0] ++ l, by rw [hl, List.append_assoc]⟩

lemma extendMatch_add :
    ∀ a out off b, extendMatch out off (a + b) = extendMatch (extendMatch out off a) off b := by
  intro a
  induction a with
  | zero => intro out off b; rw [Nat.zero_add]; rfl
  | succ a ih =>
    intro out off b
    have h : a + 1 + b = (a + b) + 1 := by omega
    rw [h]
    show extendMatch (out ++ [out.getD (out.length - off) 0]) off (a + b) = _
    rw [ih]
    rfl

/-! ## Parsing serialized tokens -/

lemma serializeTok_shape (t : Tok) (rest : List Nat) :
    serializeTok t ++ rest =
      tokByte t.lits.length (t.len - minMatch) ::
        (lenExtra t.lits.length ++
          (t.lits ++ (t.off % 256 :: t.off / 256 :: (lenExtra (t.len - minMatch) ++ rest)))) := by
  simp [serializeTok, List.append_assoc]

lemma serializeFin_shape (fin rest : List Nat) :
    serializeFin fin ++ rest =
      tokByte fin.length 0 :: (lenExtra fin.length ++ (fin ++ rest)) := by
  simp [serializeFin, litHeader, List.append_assoc]

lemma off_bytes_recompose {off : Nat} (h : off ≤ maxOffset) :
    off % 256 % 256 + 256 * (off / 256 % 256) = off := by
  unfold maxOffset at h
  omega

lemma decodeStep_serializeTok (t : Tok) (rest out : List Nat) (cap : Nat)
    (hoffmax : t.off ≤ maxOffset) (hmm : minMatch ≤ t.len) :
    decodeStep (serializeTok t ++ rest) out cap =
      if out.length + t.lits.length ≤ cap then
        if 1 ≤ t.off ∧ t.off ≤ out.length + t.lits.length then
          if out.length + t.lits.length + t.len ≤ cap then
            .next rest (expandTok out t)
          else .done (.fail .insufficientDestination (out ++ t.lits))
        else .done (.fail .malformedInput (out ++ t.lits))
      else .done (.fail .insufficientDestination out) := by
  rw [serializeTok_shape]
  have hb := off_bytes_recompose hoffmax
  have hm4 : t.len - minMatch + minMatch = t.len := by
    unfold minMatch at *
    omega
  simp only [decodeStep, tokByte_div, tokByte_mod, readLen_lenExtra]
  rw [if_pos (by simp)]
  by_cases hcap1 : out.length + t.lits.length ≤ cap
  · rw [if_pos hcap1, if_pos hcap1]
    rw [List.take_left, List.drop_left]
    simp only [hb, List.length_append, hm4]
    by_cases hoff : 1 ≤ t.off ∧ t.off ≤ out.length + t.lits.length
    · rw [if_pos hoff, if_pos hoff]
      simp only [readLen_lenExtra, hm4]
      by_cases hcap2 : out.length + t.lits.length + t.len ≤ cap
      · rw [if_pos hcap2, if_pos hcap2]
        rfl
      · rw [if_neg hcap2, if_neg hcap2]
    · rw [if_neg hoff, if_neg hoff]
  · rw [if_neg hcap1, if_neg hcap1]

lemma decodeStep_serializeFin (fin out : List Nat) (cap : Nat) :
    decodeStep (serializeFin fin) out cap =
      if out.length + fin.length ≤ cap then .done (.ok (out ++ fin))
      else .done (.fail .insufficientDestination out) := by
  have h : serializeFin fin = serializeFin fin ++ [] := by simp
  rw [h, serializeFin_shape]
  simp only [decodeStep, tokByte_div, readLen_lenExtra, List.append_nil]
  rw [if_pos (le_of_eq rfl.symm)]
  by_cases hcap : out.length + fin.length ≤ cap
  · rw [if_pos hcap, if_pos hcap]
    rw [List.take_length, List.drop_length]
  · rw [if_neg hcap, if_neg hcap]

lemma partialStep_serializeTok_trunc (t : Tok) (rest out : List Nat) (cap target : Nat)
    (h : min target cap - out.length ≤ t.lits.length) :
    partialStep (serializeTok t ++ rest) out cap target =
      .done (.ok (out ++ t.lits.take (min target cap - out.length))) := by
  rw [serializeTok_shape]
  simp only [partialStep, tokByte_div, readLen_lenExtra]
  rw [if_pos h, if_pos (by simp; omega)]
  rw [List.take_append_of_le_length h]

lemma partialStep_serializeTok_next (t : Tok) (rest out : List Nat) (cap target : Nat)
    (hoffmax : t.off ≤ maxOffset) (hmm : minMatch ≤ t.len)
    (h : t.lits.length < min target cap - out.length)
    (hoff : 1 ≤ t.off ∧ t.off ≤ out.length + t.lits.length) :
    partialStep (serializeTok t ++ rest) out cap target =
      .next rest (extendMatch (out ++ t.lits) t.off
        (min t.len (min target cap - (out.length + t.lits.length)))) := by
  rw [serializeTok_shape]
  have hb := off_bytes_recompose hoffmax
  have hm4 : t.len - minMatch + minMatch = t.len := by
    unfold minMatch at *
    omega
  simp only [partialStep, tokByte_div, tokByte_mod, readLen_lenExtra]
  rw [if_neg (by omega), if_pos (by simp)]
  rw [List.take_left, List.drop_left]
  simp only [hb, List.length_append, hm4]
  rw [if_pos hoff]
  simp only [readLen_lenExtra, hm4]

lemma partialStep_serializeFin_trunc (fin rest out : List Nat) (cap target : Nat)
    (h : min target cap - out.length ≤ fin.length) :
    partialStep (serializeFin fin ++ rest) out cap target =
      .done (.ok (out ++ fin.take (min target cap - out.length))) := by
  rw [serializeFin_shape]
  simp only [partialStep, tokByte_div, readLen_lenExtra]
  rw [if_pos h, if_pos (by simp; omega)]
  rw [List.take_append_of_le_length h]

/-! ## Token-stream semantics -/

lemma expandTok_length (out : List Nat) (t : Tok) :
    (expandTok out t).length = out.length + t.lits.length + t.len := by
  rw [expandTok, extendMatch_length]
  simp [Nat.add_assoc]

lemma expandAll_cons (out : List Nat) (t : Tok) (ts : List Tok) (fin : List Nat) :
    expandAll out (t :: ts) fin = expandAll (expandTok out t) ts fin := rfl

lemma expandAll_nil (out fin : List Nat) : expandAll out [] fin = out ++ fin := rfl

lemma expandAll_length :
    ∀ toks out fin, (expandAll out toks fin : List Nat).length =
      out.length + sumCost toks + fin.length := by
  intro toks
  induction toks with
  | nil => intro out fin; simp [expandAll, sumCost]
  | cons t ts ih =>
    intro out fin
    rw [expandAll_cons, ih, expandTok_length]
    show _ = out.length + ((t.lits.length + t.len) + sumCost ts) + fin.length
    omega

lemma expandAll_eq_append :
    ∀ toks out fin, ∃ l, expandAll out toks fin = out ++ l := by
  intro toks
  induction toks with
  | nil => intro out fin; exact ⟨fin, rfl⟩
  | cons t ts ih =>
    intro out fin
    rw [expandAll_cons]
    obtain ⟨l1, hl1⟩ := ih (expandTok out t) fin
    obtain ⟨l0, hl0⟩ := extendMatch_eq_append t.len (out ++ t.lits) t.off
    rw [hl1]
    rw [expandTok] at hl1 ⊢
    rw [hl0]
    exact ⟨t.lits ++ l0 ++ l1, by simp [List.append_assoc]⟩

lemma serialize_cons (t : Tok) (ts : List Tok) (fin : List Nat) :
    serialize (t :: ts, fin) = serializeTok t ++ serialize (ts, fin) := by
  simp [serialize, List.append_assoc]

/-! ## The Safe Decoder decodes well-formed serialized streams -/

lemma decodeLoop_serialize :
    ∀ toks f fin out cap, wfToks out.length toks →
      (expandAll out toks fin).length ≤ cap →
      decodeLoop (f + toks.length + 1) (serialize (toks, fin)) out cap =
        .ok (expandAll out toks fin) := by
  intro toks
  induction toks with
  | nil =>
    intro f fin out cap _ hcap
    rw [expandAll_nil] at hcap ⊢
    have hser : serialize (([] : List Tok), fin) = serializeFin fin := by
      simp [serialize]
    rw [hser]
    show decodeLoop (f + 1) _ _ _ = _
    rw [decodeLoop, decodeStep_serializeFin,
      if_pos (by rw [List.length_append] at hcap; exact hcap)]
  | cons t ts ih =>
    intro f fin out cap hwf hcap
    have hexp : (expandAll out (t :: ts) fin).length =
        out.length + ((t.lits.length + t.len) + sumCost ts) + fin.length :=
      expandAll_length _ _ _
    have hfuel : f + (t :: ts).length + 1 = (f + ts.length + 1) + 1 := by
      simp
      omega
    rw [hfuel, serialize_cons, decodeLoop,
      decodeStep_serializeTok t _ out cap hwf.1.2.2.1 hwf.1.2.2.2,
      if_pos (by omega), if_pos ⟨hwf.1.1, hwf.1.2.1⟩, if_pos (by omega)]
    rw [expandAll_cons] at hcap ⊢
    have hwf2 : wfToks (expandTok out t).length ts := by
      rw [expandTok_length]
      exact hwf.2
    exact ih f fin (expandTok out t) cap hwf2 hcap

/-! ## Match-finder properties -/

lemma commonPrefixLen_le_right : ∀ a b : List Nat, commonPrefixLen a b ≤ b.length := by
  intro a
  induction a with
  | nil => intro b; cases b <;> simp [commonPrefixLen]
  | cons x xs ih =>
    intro b
    cases b with
    | nil => simp [commonPrefixLen]
    | cons y ys =>
      rw [commonPrefixLen]
      by_cases h : x = y
      · rw [if_pos h]
        have := ih ys
        simp
        omega
      · rw [if_neg h]
        omega

lemma commonPrefixLen_spec :
    ∀ a b : List Nat, ∀ t, t < commonPrefixLen a b → a.getD t 0 = b.getD t 0 := by
  intro a
  induction a with
  | nil => intro b t ht; simp [commonPrefixLen] at ht
  | cons x xs ih =>
    intro b t ht
    cases b with
    | nil => simp [commonPrefixLen] at ht
    | cons y ys =>
      rw [commonPrefixLen] at ht
      by_cases h : x = y
      · rw [if_pos h] at ht
        cases t with
        | zero => simpa using h
        | succ t =>
          have := ih ys t (by omega)
          simpa using this
      · rw [if_neg h] at ht
        omega

lemma getD_drop (s : List Nat) (i t : Nat) : (s.drop i).getD t 0 = s.getD (i + t) 0 := by
  rw [List.getD_eq_getElem?_getD, List.getD_eq_getElem?_getD, List.getElem?_drop]

lemma candLen_le (s : List Nat) (i j : Nat) : candLen s i j ≤ s.length - j := by
  have h := commonPrefixLen_le_right (s.drop i) (s.drop j)
  rw [List.length_drop] at h
  exact h

lemma candLen_spec (s : List Nat) (i j : Nat) :
    ∀ t, t < candLen s i j → s.getD (i + t) 0 = s.getD (j + t) 0 := by
  intro t ht
  have h := commonPrefixLen_spec (s.drop i) (s.drop j) t ht
  rwa [getD_drop, getD_drop] at h

lemma foldl_betterCand_spec (s : List Nat) (j : Nat) :
    ∀ (l : List Nat) (acc : Option (Nat × Nat)), (∀ i ∈ l, i < j) →
      (∀ off L, acc = some (off, L) →
        1 ≤ off ∧ off ≤ j ∧ off ≤ maxOffset ∧ minMatch ≤ L ∧ L ≤ candLen s (j - off) j) →
      ∀ off L, l.foldl (betterCand s j) acc = some (off, L) →
        1 ≤ off ∧ off ≤ j ∧ off ≤ maxOffset ∧ minMatch ≤ L ∧ L ≤ candLen s (j - off) j := by
  intro l
  induction l with
  | nil => intro acc _ hacc off L h; exact hacc off L h
  | cons i is ih =>
    intro acc hmem hacc off L h
    rw [List.foldl_cons] at h
    refine ih _ (fun x hx => hmem x (List.mem_cons_of_mem _ hx)) ?_ off L h
    intro o l2 ho
    have hij : i < j := hmem i (List.mem_cons_self _ _)
    unfold betterCand at ho
    by_cases hc : minMatch ≤ candLen s i j ∧ j - i ≤ maxOffset
    · rw [if_pos hc] at ho
      have hfresh : ∀ (hq : some (j - i, candLen s i j) = some (o, l2)),
          1 ≤ o ∧ o ≤ j ∧ o ≤ maxOffset ∧ minMatch ≤ l2 ∧ l2 ≤ candLen s (j - o) j := by
        intro hq
        injection hq with hq'
        have ho1 : j - i = o := congrArg Prod.fst hq'
        have ho2 : candLen s i j = l2 := congrArg Prod.snd hq'
        have hji : j - (j - i) = i := by omega
        refine ⟨by omega, by omega, by omega, by omega, ?_⟩
        rw [← ho1, hji]
        omega
      cases acc with
      | none => exact hfresh ho
      | some p =>
        obtain ⟨bo, bl⟩ := p
        have ho2 : (if bl < candLen s i j then some (j - i, candLen s i j)
            else some (bo, bl)) = some (o, l2) := ho
        by_cases hbl : bl < candLen s i j
        · rw [if_pos hbl] at ho2
          exact hfresh ho2
        · rw [if_neg hbl] at ho2
          exact hacc o l2 (by rw [ho2])
    · rw [if_neg hc] at ho
      exact hacc o l2 (by rw [ho])

lemma bestMatch_spec {s : List Nat} {j off L : Nat} (h : bestMatch s j = some (off, L)) :
    1 ≤ off ∧ off ≤ j ∧ off ≤ maxOffset ∧ minMatch ≤ L ∧ L ≤ candLen s (j - off) j := by
  refine foldl_betterCand_spec s j (List.range j) none
    (fun i hi => List.mem_range.mp hi) ?_ off L h
  intro o l2 ho
  exact Option.noConfusion ho

/-! ## Prefix and take facts -/

lemma take_take_append (s : List Nat) (anchor j : Nat) (h : anchor ≤ j) :
    s.take anchor ++ (s.drop anchor).take (j - anchor) = s.take j := by
  have hj : j = anchor + (j - anchor) := by omega
  rw [hj, List.take_add]
  simp

lemma getD_take {s : List Nat} {n t : Nat} (ht : t < n) :
    (s.take n).getD t 0 = s.getD t 0 := by
  rw [List.getD_eq_getElem?_getD, List.getD_eq_getElem?_getD, List.getElem?_take, if_pos ht]

lemma take_succ_getD {s : List Nat} {j : Nat} (hj : j < s.length) :
    s.take (j + 1) = s.take j ++ [s.getD j 0] := by
  rw [List.take_succ, List.getElem?_eq_getElem hj]
  rw [List.getD_eq_getElem _ _ hj]
  rfl

lemma extendMatch_take (s : List Nat) (off : Nat) :
    ∀ L j, 1 ≤ off → off ≤ j → j + L ≤ s.length →
      (∀ t, t < L → s.getD (j - off + t) 0 = s.getD (j + t) 0) →
      extendMatch (s.take j) off L = s.take (j + L) := by
  intro L
  induction L with
  | zero => intro j _ _ _ _; rfl
  | succ L ih =>
    intro j h1 h2 h3 hm
    have hjlen : j < s.length := by omega
    have hlen : (s.take j).length = j := by
      rw [List.length_take]
      omega
    rw [extendMatch, hlen]
    have hbyte : (s.take j).getD (j - off) 0 = s.getD j 0 := by
      rw [getD_take (by omega)]
      have := hm 0 (by omega)
      simpa using this
    rw [hbyte, ← take_succ_getD hjlen]
    have hstep := ih (j + 1) h1 (by omega) (by omega) ?_
    · rw [hstep]
      congr 1
      omega
    · intro t ht
      have := hm (t + 1) (by omega)
      have e1 : j - off + (t + 1) = j + 1 - off + t := by omega
      have e2 : j + (t + 1) = j + 1 + t := by omega
      rw [e1, e2] at this
      exact this

/-! ## Encoder invariants -/

lemma encodeLoop_spec (s : List Nat) :
    ∀ fuel j anchor, anchor ≤ j → j ≤ s.length → s.length - j < fuel →
      wfToks anchor (encodeLoop s fuel anchor j).1 ∧
      expandAll (s.take anchor) (encodeLoop s fuel anchor j).1
        (encodeLoop s fuel anchor j).2 = s := by
  intro fuel
  induction fuel with
  | zero => intro j anchor _ _ hf; omega
  | succ fuel ih =>
    intro j anchor haj hj hf
    rw [encodeLoop]
    by_cases hend : s.length ≤ j
    · rw [if_pos hend]
      exact ⟨trivial, by rw [expandAll_nil, List.take_append_drop]⟩
    · rw [if_neg hend]
      cases hbm : bestMatch s j with
      | none =>
        exact ih (j + 1) anchor (by omega) (by omega) (by omega)
      | some p =>
        obtain ⟨off, L⟩ := p
        obtain ⟨h1, h2, h3, h4, h5⟩ := bestMatch_spec hbm
        have hcl := candLen_le s (j - off) j
        have hjL : j + L ≤ s.length := by omega
        have hlits : ((s.drop anchor).take (j - anchor)).length = j - anchor := by
          rw [List.length_take, List.length_drop]
          omega
        have hrec := ih (j + L) (j + L) (le_refl _) hjL (by
          unfold minMatch at h4
          omega)
        constructor
        · refine ⟨⟨h1, ?_, h3, h4⟩, ?_⟩
          · show off ≤ anchor + ((s.drop anchor).take (j - anchor)).length
            rw [hlits]
            omega
          · show wfToks (anchor + ((s.drop anchor).take (j - anchor)).length + L) _
            have harg : anchor + ((s.drop anchor).take (j - anchor)).length + L = j + L := by
              rw [hlits]
              omega
            rw [harg]
            exact hrec.1
        · rw [expandAll_cons]
          have hexp : expandTok (s.take anchor) ⟨(s.drop anchor).take (j - anchor), off, L⟩ =
              s.take (j + L) := by
            rw [expandTok]
            show extendMatch (s.take anchor ++ (s.drop anchor).take (j - anchor)) off L = _
            rw [take_take_append s anchor j haj]
            refine extendMatch_take s off L j h1 h2 hjL ?_
            intro t ht
            have := candLen_spec s (j - off) j t (by omega)
            have e1 : j - off + t = j - off + t := rfl
            rwa [] at this
          rw [hexp]
          exact hrec.2

/-! ## Size accounting -/

lemma lenExtra_length (n : Nat) :
    (lenExtra n).length = if n < 15 then 0 else (n - 15) / 255 + 1 := by
  unfold lenExtra lenBytes
  by_cases h : n < 15
  · rw [if_pos h, if_pos h]
    rfl
  · rw [if_neg h, if_neg h]
    simp

lemma serializeTok_length (t : Tok) :
    (serializeTok t).length =
      3 + (lenExtra t.lits.length).length + t.lits.length +
        (lenExtra (t.len - minMatch)).length := by
  rw [serializeTok]
  simp
  omega

lemma serializeFin_length (fin : List Nat) :
    (serializeFin fin).length = 1 + (lenExtra fin.length).length + fin.length := by
  rw [serializeFin, litHeader]
  simp
  omega

lemma serializeTok_length_le (t : Tok) (h : minMatch ≤ t.len) :
    (serializeTok t).length ≤
      (t.lits.length + t.len) + (t.lits.length + t.len) / 255 := by
  unfold minMatch at h
  rw [serializeTok_length, lenExtra_length, lenExtra_length]
  have hd1 : (t.lits.length - 15) / 255 ≤ (t.lits.length + t.len) / 255 :=
    Nat.div_le_div_right (by omega)
  have hd2 : (t.len - minMatch - 15) / 255 ≤ (t.lits.length + t.len) / 255 :=
    Nat.div_le_div_right (by unfold minMatch; omega)
  have hdd : (t.lits.length - 15) / 255 + (t.len - minMatch - 15) / 255 ≤
      (t.lits.length + t.len) / 255 := by
    have := div_add_div_le (t.lits.length - 15) (t.len - minMatch - 15) 255
    have hmono : (t.lits.length - 15 + (t.len - minMatch - 15)) / 255 ≤
        (t.lits.length + t.len) / 255 :=
      Nat.div_le_div_right (by unfold minMatch; omega)
    omega
  by_cases hl : t.lits.length < 15
  · rw [if_pos hl]
    by_cases hm : t.len - minMatch < 15
    · rw [if_pos hm]
      omega
    · rw [if_neg hm]
      unfold minMatch at hm
      omega
  · rw [if_neg hl]
    by_cases hm : t.len - minMatch < 15
    · rw [if_pos hm]
      omega
    · rw [if_neg hm]
      unfold minMatch at hm
      omega

lemma serializeFin_length_le (fin : List Nat) :
    (serializeFin fin).length ≤ fin.length + fin.length / 255 + 2 := by
  rw [serializeFin_length, lenExtra_length]
  have hd1 : (fin.length - 15) / 255 ≤ fin.length / 255 := Nat.div_le_div_right (by omega)
  by_cases hl : fin.length < 15
  · rw [if_pos hl]
    omega
  · rw [if_neg hl]
    omega

lemma encodeLoop_size (s : List Nat) :
    ∀ fuel j anchor, anchor ≤ j → j ≤ s.length → s.length - j < fuel →
      (serialize (encodeLoop s fuel anchor j)).length ≤
        (s.length - anchor) + (s.length - anchor) / 255 + 2 := by
  intro fuel
  induction fuel with
  | zero => intro j anchor _ _ hf; omega
  | succ fuel ih =>
    intro j anchor haj hj hf
    rw [encodeLoop]
    by_cases hend : s.length ≤ j
    · rw [if_pos hend]
      have hser : serialize (([] : List Tok), s.drop anchor) = serializeFin (s.drop anchor) := by
        simp [serialize]
      rw [hser]
      have := serializeFin_length_le (s.drop anchor)
      rw [List.length_drop] at this
      exact this
    · rw [if_neg hend]
      cases hbm : bestMatch s j with
      | none => exact ih (j + 1) anchor (by omega) (by omega) (by omega)
      | some p =>
        obtain ⟨off, L⟩ := p
        obtain ⟨h1, h2, h3, h4, h5⟩ := bestMatch_spec hbm
        have hcl := candLen_le s (j - off) j
        have hjL : j + L ≤ s.length := by omega
        have hlits : ((s.drop anchor).take (j - anchor)).length = j - anchor := by
          rw [List.length_take, List.length_drop]
          omega
        have hrec := ih (j + L) (j + L) (le_refl _) hjL (by
          unfold minMatch at h4
          omega)
        rw [serialize_cons, List.length_append]
        simp only [Prod.mk.eta]
        have htok := serializeTok_length_le ⟨(s.drop anchor).take (j - anchor), off, L⟩ h4
        have htok2 : (serializeTok ⟨(s.drop anchor).take (j - anchor), off, L⟩).length ≤
            (j - anchor + L) + (j - anchor + L) / 255 := by
          simpa [hlits] using htok
        have hsplit : (j - anchor + L) + (s.length - (j + L)) = s.length - anchor := by
          omega
        have hdd := div_add_div_le (j - anchor + L) (s.length - (j + L)) 255
        rw [hsplit] at hdd
        omega

lemma compressRaw_length_le (s : List Nat) :
    (compressRaw s).length ≤ s.length + s.length / 255 + 2 := by
  have h := encodeLoop_size s (s.length + 1) 0 0 (le_refl _) (Nat.zero_le _) (by omega)
  simpa [compressRaw, encode] using h

/-! ## Round trip -/

lemma serialize_count : ∀ (toks : List Tok) (fin : List Nat),
    toks.length ≤ (serialize (toks, fin)).length := by
  intro toks
  induction toks with
  | nil => intro fin; simp
  | cons t ts ih =>
    intro fin
    rw [serialize_cons, List.length_append]
    have h1 : 1 ≤ (serializeTok t).length := by
      rw [serializeTok]
      simp
    have := ih fin
    simp only [List.length_cons]
    omega

lemma decompress_compressRaw (s : List Nat) :
    decompress (compressRaw s) s.length = .ok s := by
  obtain ⟨hwf, hexp⟩ :=
    encodeLoop_spec s (s.length + 1) 0 0 (le_refl _) (Nat.zero_le _) (by omega)
  have hexp0 : expandAll [] (encode s).1 (encode s).2 = s := by
    simpa [encode] using hexp
  have hwf0 : wfToks (([] : List Nat)).length (encode s).1 := by
    simpa [encode] using hwf
  have hcount : (encode s).1.length ≤ (compressRaw s).length :=
    serialize_count (encode s).1 (encode s).2
  have hkey := decodeLoop_serialize (encode s).1
    ((compressRaw s).length - (encode s).1.length) (encode s).2 [] s.length
    hwf0 (by rw [hexp0])
  unfold decompress
  have hfuel : (compressRaw s).length + 1 =
      ((compressRaw s).length - (encode s).1.length) + (encode s).1.length + 1 := by
    omega
  rw [hfuel]
  have hkey2 : decodeLoop
      ((compressRaw s).length - (encode s).1.length + (encode s).1.length + 1)
      (compressRaw s) [] s.length = .ok (expandAll [] (encode s).1 (encode s).2) := hkey
  rw [hexp0] at hkey2
  exact hkey2

/-! ## Partial decoding of well-formed serialized streams -/

lemma partialLoop_stop (f : Nat) (inp out : List Nat) (cap target : Nat)
    (h : min target cap ≤ out.length) :
    partialLoop (f + 1) inp out cap target = .ok out := by
  rw [partialLoop, if_pos h]

lemma partialLoop_serialize :
    ∀ toks f fin out cap target rest,
      wfToks out.length toks →
      out.length < min target cap →
      min target cap ≤ (expandAll out toks fin).length →
      partialLoop (f + toks.length + 1) (serialize (toks, fin) ++ rest) out cap target =
        .ok ((expandAll out toks fin).take (min target cap)) := by
  intro toks
  induction toks with
  | nil =>
    intro f fin out cap target rest _ hlt hle
    rw [expandAll_nil] at hle ⊢
    rw [List.length_append] at hle
    have hser : serialize (([] : List Tok), fin) ++ rest = serializeFin fin ++ rest := by
      simp [serialize]
    rw [hser]
    show partialLoop (f + 1) _ _ _ _ = _
    rw [partialLoop, if_neg (by omega),
      partialStep_serializeFin_trunc fin rest out cap target (by omega)]
    show DecResult.ok (out ++ fin.take (min target cap - out.length)) = _
    rw [List.take_append_eq_append_take,
      @List.take_of_length_le _ (min target cap) out (by omega)]
  | cons t ts ih =>
    intro f fin out cap target rest hwf hlt hle
    obtain ⟨hwft, hwfr⟩ := hwf
    have hfuel : f + (t :: ts).length + 1 = ((f + ts.length) + 1) + 1 := by
      simp
      omega
    rw [hfuel, partialLoop, if_neg (by omega)]
    rw [serialize_cons, List.append_assoc]
    obtain ⟨w, hw⟩ := expandAll_eq_append ts (expandTok out t) fin
    rw [expandAll_cons] at hle ⊢
    by_cases htr : min target cap - out.length ≤ t.lits.length
    · -- the target is reached inside this token's literal run
      rw [partialStep_serializeTok_trunc t _ out cap target htr]
      obtain ⟨m2, hm2⟩ := extendMatch_eq_append t.len (out ++ t.lits) t.off
      have hexp : expandAll (expandTok out t) ts fin =
          (out ++ t.lits) ++ (m2 ++ w) := by
        rw [hw, expandTok, hm2, List.append_assoc]
      show DecResult.ok (out ++ t.lits.take (min target cap - out.length)) = _
      rw [hexp, List.take_append_of_le_length (by simp; omega),
        List.take_append_eq_append_take,
        @List.take_of_length_le _ (min target cap) out (by omega)]
    · -- the whole literal run is needed
      have hoff2 : t.off ≤ (out ++ t.lits).length := by
        rw [List.length_append]
        exact hwft.2.1
      rw [partialStep_serializeTok_next t _ out cap target hwft.2.2.1 hwft.2.2.2
        (by omega) ⟨hwft.1, hwft.2.1⟩]
      rcases le_or_lt t.len (min target cap - (out.length + t.lits.length)) with htK | htK
      · -- the full match copy fits below the target
        rw [Nat.min_eq_left htK]
        have hout2 : extendMatch (out ++ t.lits) t.off t.len = expandTok out t := rfl
        rw [hout2]
        have hlen2 : (expandTok out t).length = out.length + t.lits.length + t.len :=
          expandTok_length out t
        rcases Nat.lt_or_ge (expandTok out t).length (min target cap) with hcase | hcase
        · -- continue with the remaining tokens
          exact ih f fin (expandTok out t) cap target rest
            (by rw [hlen2]; exact hwfr) hcase hle
        · -- the target is reached exactly at this token's end
          show partialLoop ((f + ts.length) + 1) _ _ _ _ = _
          rw [partialLoop_stop _ _ _ _ _ (by omega)]
          have hlim : min target cap = (expandTok out t).length := by omega
          rw [hw, hlim, List.take_left]
      · -- the target is reached inside this token's match copy
        rw [Nat.min_eq_right (by omega)]
        have hsplit : t.len = (min target cap - (out.length + t.lits.length)) +
            (t.len - (min target cap - (out.length + t.lits.length))) := by omega
        have hK : (extendMatch (out ++ t.lits) t.off
            (min target cap - (out.length + t.lits.length))).length = min target cap := by
          rw [extendMatch_length, List.length_append]
          omega
        show partialLoop ((f + ts.length) + 1) _ _ _ _ = _
        rw [partialLoop_stop _ _ _ _ _ (by omega)]
        obtain ⟨m3, hm3⟩ := extendMatch_eq_append
          (t.len - (min target cap - (out.length + t.lits.length)))
          (extendMatch (out ++ t.lits) t.off (min target cap - (out.length + t.lits.length)))
          t.off
        have hexp2 : expandAll (expandTok out t) ts fin =
            extendMatch (out ++ t.lits) t.off
              (min target cap - (out.length + t.lits.length)) ++ (m3 ++ w) := by
          rw [hw, expandTok]
          rw [hsplit, extendMatch_add, hm3, List.append_assoc]
        rw [hexp2, List.take_append_of_le_length (le_of_eq hK.symm),
          List.take_of_length_le (le_of_eq hK)]

lemma decompressPartial_prefix (s : List Nat) (k : Nat) (rest : List Nat)
    (hk : k ≤ s.length) :
    decompressPartial (compressRaw s ++ rest) s.length k = .ok (s.take k) := by
  have hmin : min k s.length = k := Nat.min_eq_left hk
  rcases Nat.eq_zero_or_pos k with hk0 | hkpos
  · subst hk0
    unfold decompressPartial
    rw [partialLoop_stop _ _ _ _ _ (by simp)]
    simp
  · obtain ⟨hwf, hexp⟩ :=
      encodeLoop_spec s (s.length + 1) 0 0 (le_refl _) (Nat.zero_le _) (by omega)
    have hexp0 : expandAll [] (encode s).1 (encode s).2 = s := by
      simpa [encode] using hexp
    have hwf0 : wfToks (([] : List Nat)).length (encode s).1 := by
      simpa [encode] using hwf
    have hcount : (encode s).1.length ≤ (compressRaw s).length :=
      serialize_count (encode s).1 (encode s).2
    have hkey := partialLoop_serialize (encode s).1
      ((compressRaw s ++ rest).length - (encode s).1.length) (encode s).2 [] s.length k rest
      hwf0 (by rw [hmin]; simpa using hkpos) (by rw [hexp0, hmin]; exact hk)
    unfold decompressPartial
    have hfuel : (compressRaw s ++ rest).length + 1 =
        ((compressRaw s ++ rest).length - (encode s).1.length) + (encode s).1.length + 1 := by
      rw [List.length_append]
      omega
    rw [hfuel]
    have hkey2 : partialLoop
        ((compressRaw s ++ rest).length - (encode s).1.length + (encode s).1.length + 1)
        (compressRaw s ++ rest) [] s.length k =
        .ok ((expandAll [] (encode s).1 (encode s).2).take (min k s.length)) := hkey
    rw [hexp0, hmin] at hkey2
    exact hkey2

/-! ## Decoder write-safety -/

lemma decodeStep_done_written {inp out : List Nat} {cap : Nat} {r : DecResult}
    (hcap : out.length ≤ cap) (h : decodeStep inp out cap = .done r) :
    r.written.length ≤ cap := by
  unfold decodeStep at h
  repeat' split at h
  all_goals first
    | exact Step.noConfusion h
    | (injection h with h2; subst h2
       simp only [DecResult.written, List.length_append, List.length_take] at *
       omega)

lemma decodeStep_next_facts {inp out : List Nat} {cap : Nat} {i o : List Nat}
    (h : decodeStep inp out cap = .next i o) :
    o.length ≤ cap ∧ out.length ≤ o.length := by
  unfold decodeStep at h
  repeat' split at h
  all_goals first
    | exact Step.noConfusion h
    | (injection h with hi ho; subst hi; subst ho
       rw [extendMatch_length]
       simp only [List.length_append, List.length_take] at *
       omega)

lemma decodeLoop_written :
    ∀ f (inp out : List Nat) (cap : Nat), out.length ≤ cap →
      (decodeLoop f inp out cap).written.length ≤ cap := by
  intro f
  induction f with
  | zero => intro inp out cap hcap; exact hcap
  | succ f ih =>
    intro inp out cap hcap
    rw [decodeLoop]
    cases hs : decodeStep inp out cap with
    | done r => exact decodeStep_done_written hcap hs
    | next i o => exact ih i o cap (decodeStep_next_facts hs).1

lemma partialStep_done_written {inp out : List Nat} {cap target : Nat} {r : DecResult}
    (hcap : out.length ≤ cap) (h : partialStep inp out cap target = .done r) :
    r.written.length ≤ cap := by
  unfold partialStep at h
  repeat' split at h
  all_goals first
    | exact Step.noConfusion h
    | (injection h with h2; subst h2
       simp only [DecResult.written, List.length_append, List.length_take] at *
       omega)

lemma partialStep_next_facts {inp out : List Nat} {cap target : Nat} {i o : List Nat}
    (h : partialStep inp out cap target = .next i o) :
    o.length ≤ cap ∧ out.length ≤ o.length := by
  unfold partialStep at h
  repeat' split at h
  all_goals first
    | exact Step.noConfusion h
    | (injection h with hi ho; subst hi; subst ho
       rw [extendMatch_length]
       simp only [List.length_append, List.length_take] at *
       omega)

lemma partialLoop_written :
    ∀ f (inp out : List Nat) (cap target : Nat), out.length ≤ cap →
      (partialLoop f inp out cap target).written.length ≤ cap := by
  intro f
  induction f with
  | zero => intro inp out cap target hcap; exact hcap
  | succ f ih =>
    intro inp out cap target hcap
    rw [partialLoop]
    by_cases hstop : min target cap ≤ out.length
    · rw [if_pos hstop]
      exact hcap
    · rw [if_neg hstop]
      cases hs : partialStep inp out cap target with
      | done r => exact partialStep_done_written hcap hs
      | next i o => exact ih i o cap target (partialStep_next_facts hs).1

/-! ## Exact-consumption machinery -/

lemma decodeStep_done_ok_growth {inp out : List Nat} {cap : Nat} {r : List Nat}
    (h : decodeStep inp out cap = .done (.ok r)) : out.length ≤ r.length := by
  unfold decodeStep at h
  repeat' split at h
  all_goals first
    | exact Step.noConfusion h
    | (injection h with h2
       first
        | exact DecResult.noConfusion h2
        | (injection h2 with h3
           subst h3
           simp only [List.length_append]
           omega))

lemma decodeLoop_growth :
    ∀ f (inp out : List Nat) (cap : Nat) (r : List Nat),
      decodeLoop f inp out cap = .ok r → out.length ≤ r.length := by
  intro f
  induction f with
  | zero => intro inp out cap r h; exact DecResult.noConfusion h
  | succ f ih =>
    intro inp out cap r h
    rw [decodeLoop] at h
    cases hs : decodeStep inp out cap with
    | done r2 =>
      rw [hs] at h
      subst h
      exact decodeStep_done_ok_growth hs
    | next i o =>
      rw [hs] at h
      exact le_trans (decodeStep_next_facts hs).2 (ih i o cap r h)

lemma decodeStep_append_next {inp g out : List Nat} {cap : Nat} {i o : List Nat}
    (h : decodeStep inp out cap = .next i o) :
    decodeStep (inp ++ g) out cap = .next (i ++ g) o := by
  cases inp with
  | nil => simp [decodeStep] at h
  | cons t r1 =>
    rw [List.cons_append]
    simp only [decodeStep] at h ⊢
    cases hrl : readLen (t % 256 / 16) r1 with
    | none =>
      simp only [hrl] at h
      exact Step.noConfusion h
    | some p =>
      obtain ⟨litLen, r2⟩ := p
      simp only [hrl] at h
      simp only [readLen_append hrl]
      by_cases h1 : litLen ≤ r2.length
      · have h1g : litLen ≤ (r2 ++ g).length := by simp; omega
        rw [if_pos h1] at h
        rw [if_pos h1g]
        by_cases h2 : out.length + litLen ≤ cap
        · rw [if_pos h2] at h
          rw [if_pos h2]
          have htake : (r2 ++ g).take litLen = r2.take litLen :=
            List.take_append_of_le_length h1
          have hdrop : (r2 ++ g).drop litLen = r2.drop litLen ++ g := by
            rw [List.drop_append_eq_append_drop, Nat.sub_eq_zero_of_le h1, List.drop_zero]
          rw [htake, hdrop]
          cases hr3 : r2.drop litLen with
          | nil =>
            simp only [hr3] at h
            exact Step.noConfusion h
          | cons b0 rr =>
            cases rr with
            | nil =>
              simp only [hr3] at h
              exact Step.noConfusion h
            | cons b1 r4 =>
              simp only [hr3] at h
              simp only [hr3, List.cons_append]
              by_cases h3 : 1 ≤ b0 % 256 + 256 * (b1 % 256) ∧
                  b0 % 256 + 256 * (b1 % 256) ≤ (out ++ r2.take litLen).length
              · rw [if_pos h3] at h
                rw [if_pos h3]
                cases hrl2 : readLen (t % 256 % 16) r4 with
                | none =>
                  simp only [hrl2] at h
                  exact Step.noConfusion h
                | some q =>
                  obtain ⟨m, r5⟩ := q
                  simp only [hrl2] at h
                  simp only [readLen_append hrl2]
                  by_cases h4 : (out ++ r2.take litLen).length + (m + minMatch) ≤ cap
                  · rw [if_pos h4] at h
                    rw [if_pos h4]
                    injection h with hi ho
                    subst hi
                    subst ho
                    rfl
                  · rw [if_neg h4] at h
                    exact Step.noConfusion h
              · rw [if_neg h3] at h
                exact Step.noConfusion h
        · rw [if_neg h2] at h
          exact Step.noConfusion h
      · rw [if_neg h1] at h
        exact Step.noConfusion h

lemma decodeStep_append_ok {inp g out : List Nat} {cap : Nat} {r : List Nat}
    (h : decodeStep inp out cap = .done (.ok r)) (hg : g ≠ []) :
    (∃ e o2, decodeStep (inp ++ g) out cap = .done (.fail e o2)) ∨
    (∃ i2 o2, decodeStep (inp ++ g) out cap = .next i2 o2 ∧
      r.length + minMatch ≤ o2.length) := by
  cases inp with
  | nil => simp [decodeStep] at h
  | cons t r1 =>
    rw [List.cons_append]
    simp only [decodeStep] at h ⊢
    cases hrl : readLen (t % 256 / 16) r1 with
    | none =>
      simp only [hrl] at h
      exact absurd (Step.done.inj h) (by simp)
    | some p =>
      obtain ⟨litLen, r2⟩ := p
      simp only [hrl] at h
      simp only [readLen_append hrl]
      by_cases h1 : litLen ≤ r2.length
      · have h1g : litLen ≤ (r2 ++ g).length := by simp; omega
        rw [if_pos h1] at h
        rw [if_pos h1g]
        by_cases h2 : out.length + litLen ≤ cap
        · rw [if_pos h2] at h
          rw [if_pos h2]
          have htake : (r2 ++ g).take litLen = r2.take litLen :=
            List.take_append_of_le_length h1
          have hdrop : (r2 ++ g).drop litLen = r2.drop litLen ++ g := by
            rw [List.drop_append_eq_append_drop, Nat.sub_eq_zero_of_le h1, List.drop_zero]
          rw [htake, hdrop]
          cases hr3 : r2.drop litLen with
          | nil =>
            simp only [hr3] at h
            have hr : out ++ r2.take litLen = r := DecResult.ok.inj (Step.done.inj h)
            simp only [hr3, List.nil_append]
            cases g with
            | nil => exact absurd rfl hg
            | cons b0 gg =>
              cases gg with
              | nil =>
                simp only []
                exact Or.inl ⟨_, _, rfl⟩
              | cons b1 g4 =>
                simp only []
                by_cases h3 : 1 ≤ b0 % 256 + 256 * (b1 % 256) ∧
                    b0 % 256 + 256 * (b1 % 256) ≤ (out ++ r2.take litLen).length
                · rw [if_pos h3]
                  cases hrl2 : readLen (t % 256 % 16) g4 with
                  | none =>
                    simp only [hrl2]
                    exact Or.inl ⟨_, _, rfl⟩
                  | some q =>
                    obtain ⟨m, r5⟩ := q
                    simp only [hrl2]
                    by_cases h4 : (out ++ r2.take litLen).length + (m + minMatch) ≤ cap
                    · rw [if_pos h4]
                      refine Or.inr ⟨_, _, rfl, ?_⟩
                      rw [extendMatch_length, ← hr]
                      omega
                    · rw [if_neg h4]
                      exact Or.inl ⟨_, _, rfl⟩
                · rw [if_neg h3]
                  exact Or.inl ⟨_, _, rfl⟩
          | cons b0 rr =>
            cases rr with
            | nil =>
              simp only [hr3] at h
              exact absurd (Step.done.inj h) (by simp)
            | cons b1 r4 =>
              simp only [hr3] at h
              by_cases h3 : 1 ≤ b0 % 256 + 256 * (b1 % 256) ∧
                  b0 % 256 + 256 * (b1 % 256) ≤ (out ++ r2.take litLen).length
              · rw [if_pos h3] at h
                cases hrl2 : readLen (t % 256 % 16) r4 with
                | none =>
                  simp only [hrl2] at h
                  exact absurd (Step.done.inj h) (by simp)
                | some q =>
                  obtain ⟨m, r5⟩ := q
                  simp only [hrl2] at h
                  by_cases h4 : (out ++ r2.take litLen).length + (m + minMatch) ≤ cap
                  · rw [if_pos h4] at h
                    exact Step.noConfusion h
                  · rw [if_neg h4] at h
                    exact absurd (Step.done.inj h) (by simp)
              · rw [if_neg h3] at h
                exact absurd (Step.done.inj h) (by simp)
        · rw [if_neg h2] at h
          exact absurd (Step.done.inj h) (by simp)
      · rw [if_neg h1] at h
        exact absurd (Step.done.inj h) (by simp)

lemma decodeLoop_append_ne :
    ∀ f (inp g out : List Nat) (cap : Nat) (r : List Nat),
      decodeLoop f inp out cap = .ok r → g ≠ [] →
      ∀ f2, decodeLoop f2 (inp ++ g) out cap ≠ .ok r := by
  intro f
  induction f with
  | zero => intro inp g out cap r h; exact absurd h (by simp [decodeLoop])
  | succ f ih =>
    intro inp g out cap r h hg f2
    rw [decodeLoop] at h
    cases f2 with
    | zero => simp [decodeLoop]
    | succ f2 =>
      rw [decodeLoop]
      cases hs : decodeStep inp out cap with
      | done r2 =>
        rw [hs] at h
        subst h
        rcases decodeStep_append_ok hs hg with ⟨e, o2, hfail⟩ | ⟨i2, o2, hnext, hgrow⟩
        · rw [hfail]
          simp
        · rw [hnext]
          intro hok
          have := decodeLoop_growth f2 i2 o2 cap r hok
          unfold minMatch at hgrow
          omega
      | next i o =>
        rw [hs] at h
        rw [decodeStep_append_next hs]
        exact ih i g o cap r h hg f2

/-! ## Malformed-token rejection steps -/

lemma decodeStep_litHeader_short {n : Nat} {bytes out : List Nat} {cap : Nat}
    (h : bytes.length < n) :
    decodeStep (litHeader n ++ bytes) out cap = .done (.fail .malformedInput out) := by
  have hshape : litHeader n ++ bytes = tokByte n 0 :: (lenExtra n ++ bytes) := by
    simp [litHeader]
  rw [hshape]
  simp only [decodeStep, tokByte_div, readLen_lenExtra]
  rw [if_neg (by omega)]

lemma decodeStep_litHeader_noOffsetBytes {lits : List Nat} {b : Nat} {out : List Nat}
    {cap : Nat} (hcap : out.length + lits.length ≤ cap) :
    decodeStep (litHeader lits.length ++ (lits ++ [b])) out cap =
      .done (.fail .malformedInput (out ++ lits)) := by
  have hshape : litHeader lits.length ++ (lits ++ [b]) =
      tokByte lits.length 0 :: (lenExtra lits.length ++ (lits ++ [b])) := by
    simp [litHeader]
  rw [hshape]
  simp only [decodeStep, tokByte_div, readLen_lenExtra]
  rw [if_pos (by simp), if_pos hcap, List.take_left, List.drop_left]

/-! ## The repeating pattern of overlap copies -/

lemma extendMatch_getD_lt {out : List Nat} {off n p : Nat} (hp : p < out.length) :
    (extendMatch out off n).getD p 0 = out.getD p 0 := by
  obtain ⟨l, hl⟩ := extendMatch_eq_append n out off
  rw [hl, List.getD_append _ _ _ _ hp]

lemma extendMatch_pattern (out : List Nat) (off : Nat) (h1 : 1 ≤ off)
    (h2 : off ≤ out.length) :
    ∀ t n, t < n → (extendMatch out off n).getD (out.length + t) 0 =
      out.getD (out.length - off + t % off) 0 := by
  intro t
  induction t using Nat.strong_induction_on with
  | _ t ih =>
    intro n hn
    have hsplit : n = (t + 1) + (n - t - 1) := by omega
    have hstab : (extendMatch out off n).getD (out.length + t) 0 =
        (extendMatch out off (t + 1)).getD (out.length + t) 0 := by
      conv_lhs => rw [hsplit]
      rw [extendMatch_add]
      exact extendMatch_getD_lt (by rw [extendMatch_length]; omega)
    have hone : extendMatch out off (t + 1) =
        extendMatch out off t ++
          [(extendMatch out off t).getD ((extendMatch out off t).length - off) 0] := by
      rw [extendMatch_add t _ _ 1]
      rfl
    rw [hstab, hone]
    have hlt : (extendMatch out off t).length = out.length + t := extendMatch_length t out off
    rw [List.getD_append_right _ _ _ _ (by omega)]
    have hidx : out.length + t - (extendMatch out off t).length = 0 := by omega
    rw [hidx]
    have hget0 : ∀ x : Nat, ([x] : List Nat).getD 0 0 = x := by intro x; rfl
    rw [hget0, hlt]
    by_cases hco : t < off
    · have hlt2 : out.length + t - off < out.length := by omega
      rw [extendMatch_getD_lt hlt2]
      have e1 : out.length + t - off = out.length - off + t := by omega
      have e2 : t % off = t := Nat.mod_eq_of_lt hco
      rw [e1, e2]
    · push_neg at hco
      have e1 : out.length + t - off = out.length + (t - off) := by omega
      rw [e1]
      rw [ih (t - off) (by omega) t (by omega)]
      have e2 : (t - off) % off = t % off := by
        conv_rhs => rw [show t = (t - off) + off by omega]
        rw [Nat.add_mod_right]
      rw [e2]

lemma extendMatch_repeating (out : List Nat) (off len : Nat) (h1 : 1 ≤ off)
    (h2 : off ≤ out.length) :
    extendMatch out off len =
      out ++ (List.range len).map (fun t => out.getD (out.length - off + t % off) 0) := by
  obtain ⟨l, hl⟩ := extendMatch_eq_append len out off
  rw [hl]
  congr 1
  have hlen : l.length = len := by
    have h3 := extendMatch_length len out off
    rw [hl, List.length_append] at h3
    omega
  apply List.ext_getElem
  · rw [hlen]
    simp
  · intro n hn1 hn2
    have hn : n < len := by rwa [hlen] at hn1
    have hE : (extendMatch out off len).getD (out.length + n) 0 = l.getD n 0 := by
      rw [hl, List.getD_append_right _ _ _ _ (by omega)]
      congr 1
      omega
    have hP := extendMatch_pattern out off h1 h2 n len hn
    rw [hE] at hP
    rw [List.getElem_map, List.getElem_range, ← List.getD_eq_getElem l 0 hn1]
    exact hP

/-! ## Claim theorems -/

/-- Claim C1 (partial prefix law): for every byte sequence `S` with
`len S ≤ maxBlockSize` and every `k ≤ len S`, the Partial Safe Decoder applied
to the output of `compress S` with target `k` succeeds, its output is exactly
the first `k` bytes of `S`, and the returned byte count is
`min k (true decoded length)`; in particular for the example's 56-byte source,
target 48 reproduces exactly the first six integers (the stream past the
truncation point is never required, see the arbitrary-suffix law of C10). -/
theorem claim_c1 :
    (∀ (s : List Nat) (k cap : Nat) (c : List Nat), isBytes s →
      s.length ≤ maxBlockSize → k ≤ s.length → compress s cap = some c →
      decompressPartial c s.length k = .ok (s.take k) ∧
      (decompressPartial c s.length k).written.length = min k s.length) ∧
    decompressPartial (compressRaw ex56src) 56 48 =
      .ok (((srcInts.take 6).map int64LE).flatten) := by
  constructor
  · intro s k cap c _ _ hk hc
    have hcc : c = compressRaw s := by
      unfold compress at hc
      by_cases h : (compressRaw s).length ≤ cap
      · rw [if_pos h] at hc
        exact (Option.some.inj hc).symm
      · rw [if_neg h] at hc
        exact Option.noConfusion hc
    subst hcc
    have h := decompressPartial_prefix s k [] hk
    rw [List.append_nil] at h
    refine ⟨h, ?_⟩
    rw [h]
    show (s.take k).length = _
    rw [List.length_take]
  · have h := decompressPartial_prefix ex56src 48 [] (by decide)
    rw [List.append_nil] at h
    have h2 : decompressPartial (compressRaw ex56src) 56 48 = .ok (ex56src.take 48) := h
    rw [h2]
    decide

/-- Witness for C1 at a concrete input. -/
theorem claim_c1_witness :
    decompressPartial (compressRaw [1, 2, 3]) 3 2 = .ok [1, 2] := by
  have h := (claim_c1.1 [1, 2, 3] 2 (boundFn 3) (compressRaw [1, 2, 3])
    (by decide) (by decide) (by decide) (by decide)).1
  exact h

/-- Claim C2 (round trip): decompressing the output of `compress S` with a
destination of capacity `len S` succeeds and reproduces `S` byte for byte. -/
theorem claim_c2 : ∀ (s : List Nat) (cap : Nat) (c : List Nat), isBytes s →
    s.length ≤ maxBlockSize → compress s cap = some c →
    decompress c s.length = .ok s := by
  intro s cap c _ _ hc
  have hcc : c = compressRaw s := by
    unfold compress at hc
    by_cases h : (compressRaw s).length ≤ cap
    · rw [if_pos h] at hc
      exact (Option.some.inj hc).symm
    · rw [if_neg h] at hc
      exact Option.noConfusion hc
  subst hcc
  exact decompress_compressRaw s

/-- Witness for C2 at a concrete input. -/
theorem claim_c2_witness : decompress (compressRaw [1, 2, 3]) 3 = .ok [1, 2, 3] :=
  claim_c2 [1, 2, 3] (boundFn 3) (compressRaw [1, 2, 3]) (by decide) (by decide) (by decide)

/-- Claim C3 (decoder write safety): on every input — arbitrary malformed
bytes included — the Safe Decoder and the Partial Safe Decoder never write at
an index at or beyond the destination capacity: the bytes written by the run,
also when it ends in an explicit `MalformedInput` or `InsufficientDestination`
failure, always fit in the first `cap` destination cells. -/
theorem claim_c3 :
    (∀ (inp : List Nat) (cap : Nat), (decompress inp cap).written.length ≤ cap) ∧
    (∀ (inp : List Nat) (cap target : Nat),
      (decompressPartial inp cap target).written.length ≤ cap) :=
  ⟨fun inp cap => decodeLoop_written _ inp [] cap (by simp),
    fun inp cap target => partialLoop_written _ inp [] cap target (by simp)⟩

/-- Claim C4 (bound soundness): for every byte sequence within the maximum
block size the bound calculator answers, the encoder given a destination of
that size never fails, and the compressed length is at most the bound. -/
theorem claim_c4 : ∀ s : List Nat, isBytes s → s.length ≤ maxBlockSize →
    bound s.length = some (boundFn s.length) ∧
    compress s (boundFn s.length) = some (compressRaw s) ∧
    (compressRaw s).length ≤ boundFn s.length := by
  intro s _ hmax
  have hb := compressRaw_length_le s
  have hbf : (compressRaw s).length ≤ boundFn s.length := by
    unfold boundFn
    omega
  refine ⟨?_, ?_, hbf⟩
  · unfold bound
    rw [if_pos hmax]
  · unfold compress
    rw [if_pos hbf]

/-- Witness for C4 at the example's 56-byte source. -/
theorem claim_c4_witness :
    bound ex56src.length = some (boundFn ex56src.length) ∧
    compress ex56src (boundFn ex56src.length) = some (compressRaw ex56src) ∧
    (compressRaw ex56src).length ≤ boundFn ex56src.length :=
  claim_c4 ex56src (by decide) (by decide)

/-- Claim C5 (malformed-input rejection): (1) a back-reference token whose
offset is zero or exceeds the output produced so far is rejected with
`MalformedInput`; (2) a literal run declaring more bytes than the remaining
compressed input (a trailing truncated token) is rejected with
`MalformedInput`; (3) a token whose offset field is cut off by the end of the
input is rejected with `MalformedInput`; (4) the Safe Decoder succeeds only by
consuming exactly the declared compressed input: appending any nonempty
trailing bytes never yields the same successful result. -/
theorem claim_c5 :
    (∀ (t : Tok) (rest out : List Nat) (cap f : Nat),
      t.off ≤ maxOffset → minMatch ≤ t.len → out.length + t.lits.length ≤ cap →
      (t.off = 0 ∨ out.length + t.lits.length < t.off) →
      decodeLoop (f + 1) (serializeTok t ++ rest) out cap =
        .fail .malformedInput (out ++ t.lits)) ∧
    (∀ (n : Nat) (bytes out : List Nat) (cap f : Nat), bytes.length < n →
      decodeLoop (f + 1) (litHeader n ++ bytes) out cap = .fail .malformedInput out) ∧
    (∀ (lits : List Nat) (b : Nat) (out : List Nat) (cap f : Nat),
      out.length + lits.length ≤ cap →
      decodeLoop (f + 1) (litHeader lits.length ++ (lits ++ [b])) out cap =
        .fail .malformedInput (out ++ lits)) ∧
    (∀ (c g : List Nat) (cap : Nat) (r : List Nat), decompress c cap = .ok r →
      g ≠ [] → decompress (c ++ g) cap ≠ .ok r) := by
  refine ⟨?_, ?_, ?_, ?_⟩
  · intro t rest out cap f hmax hmm4 hcap hbad
    rw [decodeLoop, decodeStep_serializeTok t rest out cap hmax hmm4, if_pos hcap,
      if_neg (by rcases hbad with h | h <;> omega)]
  · intro n bytes out cap f h
    rw [decodeLoop, decodeStep_litHeader_short h]
  · intro lits b out cap f hcap
    rw [decodeLoop, decodeStep_litHeader_noOffsetBytes hcap]
  · intro c g cap r h hg
    unfold decompress at h ⊢
    exact decodeLoop_append_ne _ c g [] cap r h hg _

/-- Witness for C5 at a concrete truncated stream. -/
theorem claim_c5_witness :
    decodeLoop 1 (litHeader 5 ++ [1, 2]) [] 100 = .fail .malformedInput [] :=
  claim_c5.2.1 5 [1, 2] [] 100 0 (by decide)

/-- Claim C6 (overlap copy correctness): the decoders' match copy — performed
byte by byte in increasing order from `currentOutputPosition - offset` — is
exactly the repeating pattern of the last `offset` output bytes, in
particular when `matchLength` exceeds `offset`; and the Safe Decoder's step on
a serialized back-reference token performs exactly this copy. -/
theorem claim_c6 :
    (∀ (out : List Nat) (off len : Nat), 1 ≤ off → off ≤ out.length → off < len →
      extendMatch out off len =
        out ++ (List.range len).map (fun t => out.getD (out.length - off + t % off) 0)) ∧
    (∀ (t : Tok) (rest out : List Nat) (cap : Nat),
      1 ≤ t.off → t.off ≤ out.length + t.lits.length → t.off ≤ maxOffset →
      minMatch ≤ t.len → out.length + t.lits.length + t.len ≤ cap →
      decodeStep (serializeTok t ++ rest) out cap =
        .next rest (extendMatch (out ++ t.lits) t.off t.len)) := by
  constructor
  · intro out off len h1 h2 _
    exact extendMatch_repeating out off len h1 h2
  · intro t rest out cap h1 h2 h3 h4 hcap
    rw [decodeStep_serializeTok t rest out cap h3 h4, if_pos (by omega),
      if_pos ⟨h1, h2⟩, if_pos hcap]
    rfl

/-- Witness for C6 at a concrete overlapping copy (offset 1, length 3). -/
theorem claim_c6_witness :
    extendMatch [7, 9] 1 3 = [7, 9] ++ (List.range 3).map
      (fun t => [7, 9].getD ([7, 9].length - 1 + t % 1) 0) :=
  claim_c6.1 [7, 9] 1 3 (by decide) (by decide) (by decide)

/-- Claim C7 (bound monotonicity): within the supported block sizes the bound
calculator answers on both lengths and is monotone. -/
theorem claim_c7 : ∀ a b : Nat, a ≤ b → b ≤ maxBlockSize →
    ∃ Ba Bb, bound a = some Ba ∧ bound b = some Bb ∧ Ba ≤ Bb := by
  intro a b hab hbm
  refine ⟨boundFn a, boundFn b, ?_, ?_, ?_⟩
  · unfold bound
    rw [if_pos (by omega)]
  · unfold bound
    rw [if_pos hbm]
  · unfold boundFn
    have := @Nat.div_le_div_right a b 255 hab
    omega

/-- Witness for C7 at concrete lengths. -/
theorem claim_c7_witness :
    ∃ Ba Bb, bound 3 = some Ba ∧ bound 5 = some Bb ∧ Ba ≤ Bb :=
  claim_c7 3 5 (by decide) (by decide)

/-- Claim C8 (encoder determinism): two compress calls on byte-identical
sources with equal destination capacities return the same compressed length
and byte-identical written output, regardless of the destination buffers'
prior (uninitialized) contents. -/
theorem claim_c8 : ∀ (s1 s2 d1 d2 : List Nat), s1 = s2 → d1.length = d2.length →
    (compressInto s1 d1).map (fun p => p.1) = (compressInto s2 d2).map (fun p => p.1) ∧
    (compressInto s1 d1).map (fun p => p.2.take p.1) =
      (compressInto s2 d2).map (fun p => p.2.take p.1) := by
  intro s1 s2 d1 d2 hs hd
  subst hs
  unfold compressInto compress
  rw [hd]
  by_cases h : (compressRaw s1).length ≤ d2.length
  · simp only [if_pos h]
    constructor
    · rfl
    · show some ((compressRaw s1 ++ d1.drop (compressRaw s1).length).take
          (compressRaw s1).length) =
        some ((compressRaw s1 ++ d2.drop (compressRaw s1).length).take
          (compressRaw s1).length)
      rw [List.take_left, List.take_left]
  · simp only [if_neg h]
    exact ⟨trivial, trivial⟩

/-- Witness for C8 at a concrete source and two distinct destinations. -/
theorem claim_c8_witness :
    (compressInto [1, 2] [0, 0, 0]).map (fun p => p.1) =
      (compressInto [1, 2] [9, 9, 9]).map (fun p => p.1) ∧
    (compressInto [1, 2] [0, 0, 0]).map (fun p => p.2.take p.1) =
      (compressInto [1, 2] [9, 9, 9]).map (fun p => p.2.take p.1) :=
  claim_c8 [1, 2] [1, 2] [0, 0, 0] [9, 9, 9] rfl (by decide)

/-- Claim C10: although the example declares `src_size` (56) bytes of
compressed input while the shrunk buffer holds only `compressed_data_size`
bytes, the partial decoding of the 48-byte target is entirely determined by
the compressed block itself: whatever bytes `g` happen to follow it, the call
succeeds with the same 48-byte prefix, so no byte past the block is ever
consulted. -/
theorem claim_c10 : ∀ g : List Nat,
    decompressPartial (compressRaw ex56src ++ g) srcSize 48 = .ok (ex56src.take 48) := by
  intro g
  exact decompressPartial_prefix ex56src 48 g (by decide)

/-- Counterexample to C9 as stated: a run of the example program in which
every check passes (exit status 0) — here the uninitialized `regen_buffer`
happens to contain the source bytes — while the partial decoder wrote only 48
bytes, so the 8 bytes beyond the requested target were *not* written by the
decoder. -/
theorem claim_c9_counterexample :
    mainExit ex56src (List.replicate 9 0) = 0 ∧
    (decompressPartial ((compressRaw ex56src ++ List.replicate 9 0).take srcSize)
      srcSize 48).written.length = 48 :=
  ⟨by decide, by decide⟩

/-- Claim C9 as amended: the example program exits 0 only if all 56 bytes of
`regen_buffer` equal the source; since the partial decoder writes exactly the
48 requested bytes (and those always match the source), the program exits 0
exactly when the destination's last 8 bytes already held the source's last 8
bytes before the call — the decoder itself never writes them. -/
theorem claim_c9_amended :
    ∀ (initial g : List Nat), initial.length = 56 →
      (mainExit initial g = 0 ↔ initial.drop 48 = ex56src.drop 48) := by
  intro initial g hlen
  unfold mainExit
  have hcomp : compress ex56src (boundFn srcSize) = some (compressRaw ex56src) := by
    decide
  simp only [hcomp]
  have hclen : (compressRaw ex56src).length = 47 := by decide
  have hsplit : (compressRaw ex56src ++ g).take srcSize =
      compressRaw ex56src ++ g.take 9 := by
    rw [List.take_append_eq_append_take,
      List.take_of_length_le (by rw [hclen]; decide), hclen]
    rfl
  rw [hsplit]
  have hdp : decompressPartial (compressRaw ex56src ++ g.take 9) srcSize 48 =
      .ok (ex56src.take 48) := decompressPartial_prefix ex56src 48 (g.take 9) (by decide)
  simp only [hdp]
  have htk : (ex56src.take 48).length = 48 := by decide
  rw [htk]
  have hlen2 : (initial.drop 48).length = 8 := by
    rw [List.length_drop, hlen]
  have hsplit2 : (ex56src.take 48 ++ initial.drop 48).take srcSize =
      ex56src.take 48 ++ initial.drop 48 := by
    apply List.take_of_length_le
    rw [List.length_append, htk, hlen2]
    decide
  rw [hsplit2]
  constructor
  · intro h0
    by_cases hEq : ex56src.take 48 ++ initial.drop 48 = ex56src
    · have hsrc : ex56src = ex56src.take 48 ++ ex56src.drop 48 :=
        (List.take_append_drop _ _).symm
      exact List.append_cancel_left (hEq.trans hsrc)
    · rw [if_neg hEq] at h0
      exact absurd h0 one_ne_zero
  · intro hdrop
    rw [if_pos (by rw [hdrop]; exact List.take_append_drop _ _)]

/-- Witness for the amended C9: with prior destination contents equal to the
source, the program's run succeeds. -/
theorem claim_c9_amended_witness : mainExit ex56src [] = 0 :=
  (claim_c9_amended ex56src [] (by decide)).mpr rfl

/-- Witness for C10 at a concrete trailing-garbage suffix. -/
theorem claim_c10_witness :
    decompressPartial (compressRaw ex56src ++ [255, 255, 255]) srcSize 48 =
      .ok (ex56src.take 48) :=
  claim_c10 [255, 255, 255]

end LZ4
